import Mathlib

/-!
Verification of the parsik repository: a minimalistic PEG parsing engine
plus its packaging script.  The engine (expression nodes, rule table,
memoization cache, matching engine, parse entry point) is modelled from the
specification document; the packaging script is embedded from
`src/setup.py`.
-/

namespace Parsik

/-- Modelled from the spec: the vocabulary of PEG constructs (spec section 3,
"Expression"), one variant per construct.  The engine source file itself is
not in the repository snapshot, so the node type is taken from the spec's
data model. -/
inductive Expr where
  | Literal (text : List Char)
  | CharClass (pr : Char → Bool) (descr : String)
  | Sequence (children : List Expr)
  | OrderedChoice (children : List Expr)
  | ZeroOrMore (child : Expr)
  | OneOrMore (child : Expr)
  | Optional (child : Expr)
  | AndPredicate (child : Expr)
  | NotPredicate (child : Expr)
  | RuleReference (nm : String)

/-- Modelled from the spec: a parse-tree node `(label, span, children)`
(spec section 3, "Parse Node"). -/
inductive ParseNode where
  | mk (label : String) (first last : Nat) (children : List ParseNode)

/-- Modelled from the spec: a match outcome is either `Success(end position,
parse node or none)` or `Failure(furthest position, expectation set)`
(spec section 3, "Match Outcome"). -/
inductive MatchOutcome where
  | Success (stop : Nat) (tree : Option ParseNode)
  | Failure (furthest : Nat) (expected : List String)

/-- Modelled from the spec: the hard errors that surface to the caller
(spec section 7): `UndefinedRuleError` for a missing rule, and a
resource-exhaustion guard for the recursion bound. -/
inductive EngineError where
  | UndefinedRuleError (nm : String)
  | ResourceExhaustion

/-- Modelled from the spec: the rule table maps rule names to their defining
expressions (spec section 3, "Rule Table"). -/
def RuleTable := List (String × Expr)

/-- Modelled from the spec: lazy name lookup in the rule table
(spec section 4.2, `resolve`). -/
def RuleTable.resolve : RuleTable → String → Option Expr
  | [], _ => none
  | (k, e) :: rest, nm => if k = nm then some e else RuleTable.resolve rest nm

/-- Modelled from the spec: the memoization cache maps `(rule name, position)`
keys to cached match outcomes (spec section 3, "Memoization Cache"). -/
def Cache := List ((String × Nat) × MatchOutcome)

/-- Cache lookup by `(rule name, position)` key. -/
def Cache.find : Cache → String × Nat → Option MatchOutcome
  | [], _ => none
  | (k, r) :: rest, key => if k = key then some r else Cache.find rest key

/-- Modelled from the spec: the result of a top-level parse (spec section 4.3):
complete consumption, partial consumption, or failure diagnostics. -/
inductive ParseResult where
  | Complete (tree : Option ParseNode)
  | Part (tree : Option ParseNode) (stop : Nat)
  | Failed (furthest : Nat) (expected : List String)

/-- The intermediate result of running a sequence of children: either all
matched (final position and collected subtrees) or one failed. -/
inductive SeqOut where
  | ok (stop : Nat) (kids : List ParseNode)
  | fail (pos : Nat) (expected : List String)

/-- The uniform shape of a state-threading evaluation step: expression,
position and memo state in, outcome and memo state out (or a hard error). -/
def Ev (σ : Type) := Expr → Nat → σ → Except EngineError (MatchOutcome × σ)

/-- Modelled from the spec: merging of abandoned alternatives' failures,
furthest position wins and ties merge expectation sets (spec section 3,
"Match Outcome"). -/
def mergeFail (best : Option (Nat × List String)) (p : Nat) (ex : List String) :
    Nat × List String :=
  match best with
  | none => (p, ex)
  | some (bp, bex) =>
      if bp < p then (p, ex) else if p < bp then (bp, bex) else (bp, bex ++ ex)

/-- Modelled from the spec: `Sequence` evaluation, children left to right, each
fed the cursor from the previous success; any child failure fails the whole
sequence at that child's failure position (spec section 4.1). -/
def runSeq {σ : Type} (f : Ev σ) :
    List Expr → Nat → σ → List ParseNode → Except EngineError (SeqOut × σ)
  | [], pos, s, acc => .ok (.ok pos acc, s)
  | c :: cs, pos, s, acc =>
    match f c pos s with
    | .error er => .error er
    | .ok (.Failure p ex, s') => .ok (.fail p ex, s')
    | .ok (.Success p t, s') => runSeq f cs p s' (acc ++ t.toList)

/-- Modelled from the spec: `OrderedChoice` evaluation, children left to right
from the original cursor, first success wins, all failing merges failures by
furthest position (spec section 4.1). -/
def runChoice {σ : Type} (f : Ev σ) :
    List Expr → Nat → σ → Option (Nat × List String) →
    Except EngineError (MatchOutcome × σ)
  | [], pos, s, best =>
      match best with
      | none => .ok (.Failure pos [], s)
      | some (bp, bex) => .ok (.Failure bp bex, s)
  | c :: cs, pos, s, best =>
    match f c pos s with
    | .error er => .error er
    | .ok (.Success p t, s') => .ok (.Success p t, s')
    | .ok (.Failure p ex, s') => runChoice f cs pos s' (some (mergeFail best p ex))

/-- Modelled from the spec: the greedy repetition loop shared by `ZeroOrMore`
and `OneOrMore`: apply the child repeatedly, stop at the first failure
(discarding that attempt), and stop on a zero-width success (the non-progress
guard of spec section 9).  The first argument is the repetition budget. -/
def runRep {σ : Type} (fc : Nat → σ → Except EngineError (MatchOutcome × σ)) :
    Nat → Nat → σ → List ParseNode → Except EngineError ((Nat × List ParseNode) × σ)
  | 0, _, _, _ => .error .ResourceExhaustion
  | n + 1, pos, s, acc =>
    match fc pos s with
    | .error er => .error er
    | .ok (.Failure _ _, s') => .ok ((pos, acc), s')
    | .ok (.Success p t, s') =>
        if p = pos then .ok ((pos, acc ++ t.toList), s')
        else runRep fc n p s' (acc ++ t.toList)

/-- Modelled from the spec: the parse node recorded for a successful rule
application, labelled with the rule name (spec section 3, "Parse Node");
failures pass through unchanged. -/
def wrapRule (nm : String) (pos : Nat) : MatchOutcome → MatchOutcome
  | .Success p t => .Success p (some (.mk nm pos p t.toList))
  | .Failure fp fe => .Failure fp fe

/-- Modelled from the spec: one dispatch step of the matching engine
(spec section 4.1), parametric in the memo-state type, the handler for
`RuleReference` nodes and the evaluator used for sub-expressions.  `repFuel`
bounds the repetition loops. -/
def matchStep {σ : Type} (input : List Char) (repFuel : Nat)
    (ruleCase : String → Nat → σ → Except EngineError (MatchOutcome × σ))
    (f : Ev σ) : Ev σ := fun e pos s =>
  match e with
  | .Literal text =>
      if (input.drop pos).take text.length = text then
        .ok (.Success (pos + text.length)
          (some (.mk (String.mk text) pos (pos + text.length) [])), s)
      else .ok (.Failure pos [String.mk text], s)
  | .CharClass pr descr =>
      match input[pos]? with
      | some a =>
          if pr a then .ok (.Success (pos + 1) (some (.mk descr pos (pos + 1) [])), s)
          else .ok (.Failure pos [descr], s)
      | none => .ok (.Failure pos [descr], s)
  | .Sequence cs =>
      match runSeq f cs pos s [] with
      | .error er => .error er
      | .ok (.ok stop kids, s') =>
          .ok (.Success stop (some (.mk ("Sequence") pos stop kids)), s')
      | .ok (.fail p ex, s') => .ok (.Failure p ex, s')
  | .OrderedChoice cs => runChoice f cs pos s none
  | .ZeroOrMore ch =>
      match runRep (fun q u => f ch q u) repFuel pos s [] with
      | .error er => .error er
      | .ok ((stop, kids), s') =>
          .ok (.Success stop (some (.mk ("Repetition") pos stop kids)), s')
  | .OneOrMore ch =>
      match f ch pos s with
      | .error er => .error er
      | .ok (.Failure p ex, s') => .ok (.Failure p ex, s')
      | .ok (.Success p1 t1, s') =>
          if p1 = pos then
            .ok (.Success p1 (some (.mk ("Repetition") pos p1 t1.toList)), s')
          else
            match runRep (fun q u => f ch q u) repFuel p1 s' t1.toList with
            | .error er => .error er
            | .ok ((stop, kids), s'') =>
                .ok (.Success stop (some (.mk ("Repetition") pos stop kids)), s'')
  | .Optional ch =>
      match f ch pos s with
      | .error er => .error er
      | .ok (.Success p t, s') => .ok (.Success p t, s')
      | .ok (.Failure _ _, s') => .ok (.Success pos none, s')
  | .AndPredicate ch =>
      match f ch pos s with
      | .error er => .error er
      | .ok (.Success _ _, s') => .ok (.Success pos none, s')
      | .ok (.Failure _ ex, s') => .ok (.Failure pos ex, s')
  | .NotPredicate ch =>
      match f ch pos s with
      | .error er => .error er
      | .ok (.Success _ _, s') => .ok (.Failure pos ["unexpected match"], s')
      | .ok (.Failure _ _, s') => .ok (.Success pos none, s')
  | .RuleReference nm => ruleCase nm pos s

/-- Modelled from the spec: the `RuleReference` handler of the memoizing
engine (spec section 4.1): consult the cache first, otherwise resolve the
name (raising `UndefinedRuleError` when absent), evaluate the body, and store
the wrapped outcome keyed by `(rule name, position)` before returning. -/
def ruleCaseC (rt : RuleTable) (f : Ev Cache) (nm : String) (pos : Nat)
    (c : Cache) : Except EngineError (MatchOutcome × Cache) :=
  match Cache.find c (nm, pos) with
  | some r => .ok (r, c)
  | none =>
    match RuleTable.resolve rt nm with
    | none => .error (.UndefinedRuleError nm)
    | some body =>
      match f body pos c with
      | .error er => .error er
      | .ok (r, c') => .ok (wrapRule nm pos r, ((nm, pos), wrapRule nm pos r) :: c')

/-- Modelled from the spec: the `RuleReference` handler of the conceptually
cache-disabled engine (spec section 8, "Memoization transparency"): resolve
and evaluate every time, no cache consulted or written. -/
def ruleCaseNC (rt : RuleTable) (f : Ev Unit) (nm : String) (pos : Nat)
    (_ : Unit) : Except EngineError (MatchOutcome × Unit) :=
  match RuleTable.resolve rt nm with
  | none => .error (.UndefinedRuleError nm)
  | some body =>
    match f body pos () with
    | .error er => .error er
    | .ok (r, _) => .ok (wrapRule nm pos r, ())

/-- Modelled from the spec: the memoizing matching engine
(spec section 4.1, `match`), indexed by a fuel bound that models the
caller-imposed recursion guard of spec section 5. -/
def matchExpr (rt : RuleTable) (input : List Char) (fuel : Nat) :
    Expr → Nat → Cache → Except EngineError (MatchOutcome × Cache) :=
  Nat.rec (motive := fun _ => Ev Cache)
    (fun _ _ _ => .error .ResourceExhaustion)
    (fun fl ih => fun e pos c => matchStep input fl (ruleCaseC rt ih) ih e pos c)
    fuel

/-- Modelled from the spec: the same matching engine with the memoization
cache disabled (spec section 8, "Memoization transparency"). -/
def matchNC (rt : RuleTable) (input : List Char) (fuel : Nat) :
    Expr → Nat → Unit → Except EngineError (MatchOutcome × Unit) :=
  Nat.rec (motive := fun _ => Ev Unit)
    (fun _ _ _ => .error .ResourceExhaustion)
    (fun fl ih => fun e pos u => matchStep input fl (ruleCaseNC rt ih) ih e pos u)
    fuel

/-- Modelled from the spec: classification of a successful or failed match
into the top-level `ParseResult` (spec section 4.3). -/
def classify (inputLen : Nat) : MatchOutcome → ParseResult
  | .Success p t => if p = inputLen then .Complete t else .Part t p
  | .Failure fp fe => .Failed fp fe

/-- Modelled from the spec: the top-level parse entry point
(spec section 4.3): fresh cursor at position 0, fresh empty cache, evaluate
`RuleReference(start)`, classify the outcome. -/
def parse (rt : RuleTable) (start : String) (input : List Char) (fuel : Nat) :
    Except EngineError ParseResult :=
  match matchExpr rt input fuel (.RuleReference start) 0 [] with
  | .error er => .error er
  | .ok (r, _) => .ok (classify input.length r)

/-- Modelled from the spec: the top-level parse with the cache disabled
(spec section 8, "Memoization transparency"). -/
def parseNC (rt : RuleTable) (start : String) (input : List Char) (fuel : Nat) :
    Except EngineError ParseResult :=
  match matchNC rt input fuel (.RuleReference start) 0 () with
  | .error er => .error er
  | .ok (r, _) => .ok (classify input.length r)

/-- Embedded from src/setup.py: the record of keyword arguments the script
passes to `setuptools.setup`. -/
structure SetupArgs where
  name : String
  version : String
  author : String
  author_email : String
  description : String
  long_description : String
  long_description_content_type : String
  url : String
  packages : List String
  classifiers : List String
  keywords : List String
deriving DecidableEq

/-- The environment the setup script reads: the files of the working
directory, and the package directories that `setuptools.find_packages`
would discover there. -/
structure WorkingDir where
  files : List (String × String)
  packagesPresent : List String
deriving DecidableEq

/-- File lookup by name in the working directory's files. -/
def readFile : List (String × String) → String → Option String
  | [], _ => none
  | (n, contents) :: rest, fn =>
      if n = fn then some contents else readFile rest fn

/-- Modelled from the spec: `setuptools.find_packages` is an external
setuptools call not in the repository; it returns the package directories
found under the working directory. -/
def find_packages (d : WorkingDir) : List String := d.packagesPresent

/-- Embedded from src/setup.py: open and read README.md (a missing file makes
`open` raise, modelled as `none`, and `setuptools.setup` is then never
reached), then call `setuptools.setup` with the literal metadata arguments,
the README contents as `long_description`, and `find_packages()`. -/
def runSetup (d : WorkingDir) : Option SetupArgs :=
  match readFile d.files ("README.md") with
  | none => none
  | some fileContents =>
      some ⟨"parsik", "0.9.1", "Mike Biggs", "nfomon@users.noreply.github.com",
        "A minimalistic PEG parser", fileContents, "text/markdown",
        "https://github.com/nfomon/parsik", find_packages d,
        ["Programming Language :: Python :: 3",
         "License :: OSI Approved :: GNU General Public License v3 (GPLv3)",
         "Operating System :: OS Independent",
         "License :: OSI Approved :: MIT License"],
        ["parser", "parsing", "peg", "grammar", "language"]⟩

/-- A position-to-position evaluation step is monotone: it preserves the memo
invariant `P`, a success never moves the cursor backwards, and it keeps the
cursor within the input length `len`. -/
def PosMono {σ : Type} (len : Nat)
    (fc : Nat → σ → Except EngineError (MatchOutcome × σ)) (P : σ → Prop) : Prop :=
  ∀ pos s r s', P s → fc pos s = .ok (r, s') →
    P s' ∧ ∀ p t, r = .Success p t → pos ≤ p ∧ (pos ≤ len → p ≤ len)

/-- Well-formedness of a memoization cache: every cached success at key
position `p` ends at or after `p`, and within the input length. -/
def CacheWF (len : Nat) (c : Cache) : Prop :=
  ∀ nm p r, Cache.find c (nm, p) = some r →
    ∀ q t, r = .Success q t → p ≤ q ∧ (p ≤ len → q ≤ len)

/-- One evaluation step refines another: whenever the first returns an
ordinary (non-error) answer, the second returns the same answer.  Used to
state that extra fuel never changes a defined result. -/
def PosLe {σ : Type}
    (fc gc : Nat → σ → Except EngineError (MatchOutcome × σ)) : Prop :=
  ∀ pos s r, fc pos s = .ok r → gc pos s = .ok r

/-- Simulation of a cache-free evaluation step by a memoizing one: whenever
the cache-free step returns an answer, the memoizing step returns the same
match outcome from any cache satisfying `P`, and `P` is preserved. -/
def PosSim (P : Cache → Prop)
    (gc : Nat → Unit → Except EngineError (MatchOutcome × Unit))
    (fc : Nat → Cache → Except EngineError (MatchOutcome × Cache)) : Prop :=
  ∀ pos r u, gc pos () = .ok (r, u) →
    ∀ c, P c → ∃ c', fc pos c = .ok (r, c') ∧ P c'

/-- Correctness of a memoization cache with respect to the cache-free
engine: every cached outcome is the outcome the cache-free engine produces
for that rule reference at that position, at some fuel. -/
def CacheOK (rt : RuleTable) (input : List Char) (c : Cache) : Prop :=
  ∀ nm p r, Cache.find c (nm, p) = some r →
    ∃ fl, matchNC rt input fl (.RuleReference nm) p () = .ok (r, ())

/-- A one-rule grammar used as a concrete test input. -/
def rtW : RuleTable := [("S", .Literal ['a'])]

/-- A working directory with a README and no packages. -/
def dirA : WorkingDir := ⟨[("README.md", "readme")], []⟩

/-- A working directory with the same README and one package. -/
def dirB : WorkingDir := ⟨[("README.md", "readme")], ["parsik"]⟩

/-- A working directory with no README.md. -/
def dirEmpty : WorkingDir := ⟨[], []⟩

/-- Unfolding equation: the engine with zero fuel reports exhaustion. -/
theorem matchExpr_zero (rt : RuleTable) (input : List Char) (e : Expr)
    (pos : Nat) (c : Cache) :
    matchExpr rt input 0 e pos c = .error .ResourceExhaustion := rfl

/-- Unfolding equation: one engine step at positive fuel. -/
theorem matchExpr_succ (rt : RuleTable) (input : List Char) (fuel : Nat)
    (e : Expr) (pos : Nat) (c : Cache) :
    matchExpr rt input (fuel + 1) e pos c =
      matchStep input fuel (ruleCaseC rt (matchExpr rt input fuel))
        (matchExpr rt input fuel) e pos c := rfl

/-- Unfolding equation: the cache-free engine with zero fuel. -/
theorem matchNC_zero (rt : RuleTable) (input : List Char) (e : Expr)
    (pos : Nat) (u : Unit) :
    matchNC rt input 0 e pos u = .error .ResourceExhaustion := rfl

/-- Unfolding equation: one cache-free engine step at positive fuel. -/
theorem matchNC_succ (rt : RuleTable) (input : List Char) (fuel : Nat)
    (e : Expr) (pos : Nat) (u : Unit) :
    matchNC rt input (fuel + 1) e pos u =
      matchStep input fuel (ruleCaseNC rt (matchNC rt input fuel))
        (matchNC rt input fuel) e pos u := rfl

/-- The empty cache is well-formed. -/
theorem cacheWF_nil (len : Nat) : CacheWF len [] :=
  fun _ _ _ h => Option.noConfusion h

/-- The empty cache is trivially correct for any rule table and input. -/
theorem cacheOK_nil (rt : RuleTable) (input : List Char) : CacheOK rt input [] :=
  fun _ _ _ h => Option.noConfusion h

/-- A successful literal comparison bounds the literal's length by the
remaining input. -/
theorem take_eq_length_le (input text : List Char) (pos : Nat)
    (h : (input.drop pos).take text.length = text) :
    text.length ≤ input.length - pos := by
  have hl := congrArg List.length h
  simp only [List.length_take, List.length_drop] at hl
  omega

/-- Sequencing children preserves the memo invariant and never moves the
cursor backwards or beyond the input. -/
theorem runSeq_mono {σ : Type} (len : Nat) (f : Ev σ) (P : σ → Prop)
    (hf : ∀ e, PosMono len (f e) P) :
    ∀ (cs : List Expr) (pos : Nat) (s : σ) (acc : List ParseNode) r s',
      P s → runSeq f cs pos s acc = .ok (r, s') →
      P s' ∧ ∀ stop kids, r = .ok stop kids →
        pos ≤ stop ∧ (pos ≤ len → stop ≤ len) := by
  intro cs
  induction cs with
  | nil =>
      intro pos s acc r s' hP h
      simp only [runSeq, Except.ok.injEq, Prod.mk.injEq] at h
      obtain ⟨rfl, rfl⟩ := h
      refine ⟨hP, fun stop kids hk => ?_⟩
      cases hk
      exact ⟨le_refl _, fun hb => hb⟩
  | cons c cs ih =>
      intro pos s acc r s' hP h
      cases hc : f c pos s with
      | error er =>
          simp only [runSeq, hc] at h
          exact Except.noConfusion h
      | ok pr =>
          obtain ⟨o, s1⟩ := pr
          cases o with
          | Failure p ex =>
              simp only [runSeq, hc, Except.ok.injEq, Prod.mk.injEq] at h
              obtain ⟨rfl, rfl⟩ := h
              exact ⟨(hf c pos s _ _ hP hc).1, fun stop kids hk => by cases hk⟩
          | Success p t =>
              simp only [runSeq, hc] at h
              obtain ⟨hP1, hm⟩ := hf c pos s _ _ hP hc
              obtain ⟨hle, hbd⟩ := hm p t rfl
              obtain ⟨hP2, hstop⟩ := ih p s1 (acc ++ t.toList) r s' hP1 h
              refine ⟨hP2, fun stop kids hk => ?_⟩
              obtain ⟨h1, h2⟩ := hstop stop kids hk
              exact ⟨le_trans hle h1, fun hpl => h2 (hbd hpl)⟩

/-- Ordered choice preserves the memo invariant, and a successful choice
satisfies the cursor bounds of its winning child, tried at the original
position. -/
theorem runChoice_mono {σ : Type} (len : Nat) (f : Ev σ) (P : σ → Prop)
    (hf : ∀ e, PosMono len (f e) P) :
    ∀ (cs : List Expr) (pos : Nat) (s : σ) (best : Option (Nat × List String)) r s',
      P s → runChoice f cs pos s best = .ok (r, s') →
      P s' ∧ ∀ p t, r = .Success p t → pos ≤ p ∧ (pos ≤ len → p ≤ len) := by
  intro cs
  induction cs with
  | nil =>
      intro pos s best r s' hP h
      cases best with
      | none =>
          simp only [runChoice, Except.ok.injEq, Prod.mk.injEq] at h
          obtain ⟨rfl, rfl⟩ := h
          exact ⟨hP, fun p t hk => by cases hk⟩
      | some b =>
          obtain ⟨bp, bex⟩ := b
          simp only [runChoice, Except.ok.injEq, Prod.mk.injEq] at h
          obtain ⟨rfl, rfl⟩ := h
          exact ⟨hP, fun p t hk => by cases hk⟩
  | cons c cs ih =>
      intro pos s best r s' hP h
      cases hc : f c pos s with
      | error er =>
          simp only [runChoice, hc] at h
          exact Except.noConfusion h
      | ok pr =>
          obtain ⟨o, s1⟩ := pr
          cases o with
          | Success p t =>
              simp only [runChoice, hc, Except.ok.injEq, Prod.mk.injEq] at h
              obtain ⟨rfl, rfl⟩ := h
              obtain ⟨hP1, hm⟩ := hf c pos s _ _ hP hc
              exact ⟨hP1, fun q u hk => by cases hk; exact hm p t rfl⟩
          | Failure p ex =>
              simp only [runChoice, hc] at h
              obtain ⟨hP1, _⟩ := hf c pos s _ _ hP hc
              exact ih pos s1 (some (mergeFail best p ex)) r s' hP1 h

/-- The repetition loop preserves the memo invariant and never moves the
cursor backwards or beyond the input. -/
theorem runRep_mono {σ : Type} (len : Nat)
    (fc : Nat → σ → Except EngineError (MatchOutcome × σ)) (P : σ → Prop)
    (hfc : PosMono len fc P) :
    ∀ (n pos : Nat) (s : σ) (acc : List ParseNode) stop kids s',
      P s → runRep fc n pos s acc = .ok ((stop, kids), s') →
      P s' ∧ pos ≤ stop ∧ (pos ≤ len → stop ≤ len) := by
  intro n
  induction n with
  | zero =>
      intro pos s acc stop kids s' hP h
      simp only [runRep] at h
      exact Except.noConfusion h
  | succ n ih =>
      intro pos s acc stop kids s' hP h
      cases hc : fc pos s with
      | error er =>
          simp only [runRep, hc] at h
          exact Except.noConfusion h
      | ok pr =>
          obtain ⟨o, s1⟩ := pr
          cases o with
          | Failure p ex =>
              simp only [runRep, hc, Except.ok.injEq, Prod.mk.injEq] at h
              obtain ⟨⟨rfl, rfl⟩, rfl⟩ := h
              exact ⟨(hfc pos s _ _ hP hc).1, le_refl _, fun hb => hb⟩
          | Success p t =>
              obtain ⟨hP1, hm⟩ := hfc pos s _ _ hP hc
              obtain ⟨hle, hbd⟩ := hm p t rfl
              simp only [runRep, hc] at h
              split at h
              · simp only [Except.ok.injEq, Prod.mk.injEq] at h
                obtain ⟨⟨rfl, rfl⟩, rfl⟩ := h
                exact ⟨hP1, le_refl _, fun hb => hb⟩
              · obtain ⟨hP2, h1, h2⟩ := ih p s1 (acc ++ t.toList) stop kids s' hP1 h
                exact ⟨hP2, le_trans hle h1, fun hpl => h2 (hbd hpl)⟩

/-- Unfolding equation for cache lookup at a cons cell. -/
theorem cacheFind_cons (k : String × Nat) (r : MatchOutcome) (rest : Cache)
    (key : String × Nat) :
    Cache.find ((k, r) :: rest) key =
      if k = key then some r else Cache.find rest key := rfl

/-- The memoizing rule-reference handler preserves cache well-formedness and
the cursor bounds. -/
theorem ruleCaseC_mono (rt : RuleTable) (input : List Char) (f : Ev Cache)
    (hf : ∀ e, PosMono input.length (f e) (CacheWF input.length)) :
    ∀ nm, PosMono input.length (ruleCaseC rt f nm) (CacheWF input.length) := by
  intro nm pos c r c' hWF h
  cases hfind : Cache.find c (nm, pos) with
  | some r0 =>
      simp only [ruleCaseC, hfind, Except.ok.injEq, Prod.mk.injEq] at h
      obtain ⟨rfl, rfl⟩ := h
      exact ⟨hWF, fun p t hr => hWF nm pos r0 hfind p t hr⟩
  | none =>
      simp only [ruleCaseC, hfind] at h
      cases hres : RuleTable.resolve rt nm with
      | none =>
          simp only [hres] at h
          exact Except.noConfusion h
      | some body =>
          simp only [hres] at h
          cases hb : f body pos c with
          | error er =>
              simp only [hb] at h
              exact Except.noConfusion h
          | ok pr =>
              obtain ⟨rb, c1⟩ := pr
              simp only [hb, Except.ok.injEq, Prod.mk.injEq] at h
              obtain ⟨rfl, rfl⟩ := h
              obtain ⟨hWF1, hm⟩ := hf body pos c _ _ hWF hb
              constructor
              · intro nm2 p2 r2 hfind2 q t hr2
                by_cases hk : ((nm, pos) : String × Nat) = (nm2, p2)
                · cases hk
                  rw [cacheFind_cons, if_pos rfl] at hfind2
                  cases hfind2
                  cases rb with
                  | Success pb tb =>
                      simp only [wrapRule, MatchOutcome.Success.injEq] at hr2
                      obtain ⟨h1, h2⟩ := hr2
                      subst h1
                      exact hm _ tb rfl
                  | Failure a b => simp only [wrapRule] at hr2; cases hr2
                · rw [cacheFind_cons, if_neg hk] at hfind2
                  exact hWF1 nm2 p2 r2 hfind2 q t hr2
              · intro p t hr
                cases rb with
                | Success pb tb =>
                    simp only [wrapRule, MatchOutcome.Success.injEq] at hr
                    obtain ⟨h1, h2⟩ := hr
                    subst h1
                    exact hm _ tb rfl
                | Failure a b => simp only [wrapRule] at hr; cases hr

/-- One engine dispatch step preserves the memo invariant and the cursor
bounds, given that its sub-evaluator and rule handler do. -/
theorem matchStep_mono {σ : Type} (input : List Char) (repFuel : Nat)
    (rc : String → Nat → σ → Except EngineError (MatchOutcome × σ)) (f : Ev σ)
    (P : σ → Prop)
    (hf : ∀ e, PosMono input.length (f e) P)
    (hrc : ∀ nm, PosMono input.length (rc nm) P) :
    ∀ e, PosMono input.length (matchStep input repFuel rc f e) P := by
  intro e pos s r s' hP h
  cases e with
  | Literal text =>
      simp only [matchStep] at h
      split at h
      case isTrue htake =>
        simp only [Except.ok.injEq, Prod.mk.injEq] at h
        obtain ⟨rfl, rfl⟩ := h
        refine ⟨hP, fun p t hr => ?_⟩
        cases hr
        have := take_eq_length_le input text pos htake
        exact ⟨Nat.le_add_right _ _, fun hpl => by omega⟩
      case isFalse htake =>
        simp only [Except.ok.injEq, Prod.mk.injEq] at h
        obtain ⟨rfl, rfl⟩ := h
        exact ⟨hP, fun p t hr => by cases hr⟩
  | CharClass pr descr =>
      simp only [matchStep] at h
      cases hga : input[pos]? with
      | some a =>
          simp only [hga] at h
          have hlt : pos < input.length := by
            by_contra hge
            push_neg at hge
            rw [List.getElem?_eq_none hge] at hga
            cases hga
          split at h
          · simp only [Except.ok.injEq, Prod.mk.injEq] at h
            obtain ⟨rfl, rfl⟩ := h
            refine ⟨hP, fun p t hr => ?_⟩
            cases hr
            exact ⟨Nat.le_succ _, fun _ => hlt⟩
          · simp only [Except.ok.injEq, Prod.mk.injEq] at h
            obtain ⟨rfl, rfl⟩ := h
            exact ⟨hP, fun p t hr => by cases hr⟩
      | none =>
          simp only [hga, Except.ok.injEq, Prod.mk.injEq] at h
          obtain ⟨rfl, rfl⟩ := h
          exact ⟨hP, fun p t hr => by cases hr⟩
  | Sequence cs =>
      simp only [matchStep] at h
      cases hsq : runSeq f cs pos s [] with
      | error er => rw [hsq] at h; cases h
      | ok pr =>
          obtain ⟨o, s1⟩ := pr
          obtain ⟨hP1, hstop⟩ := runSeq_mono input.length f P hf cs pos s [] o s1 hP hsq
          cases o with
          | ok stop kids =>
              rw [hsq] at h
              simp only [Except.ok.injEq, Prod.mk.injEq] at h
              obtain ⟨rfl, rfl⟩ := h
              refine ⟨hP1, fun p t hr => ?_⟩
              cases hr
              exact hstop stop kids rfl
          | fail fp fe =>
              rw [hsq] at h
              simp only [Except.ok.injEq, Prod.mk.injEq] at h
              obtain ⟨rfl, rfl⟩ := h
              exact ⟨hP1, fun p t hr => by cases hr⟩
  | OrderedChoice cs =>
      simp only [matchStep] at h
      obtain ⟨hP1, hm⟩ := runChoice_mono input.length f P hf cs pos s none r s' hP h
      exact ⟨hP1, hm⟩
  | ZeroOrMore ch =>
      simp only [matchStep] at h
      cases hr0 : runRep (fun q u => f ch q u) repFuel pos s [] with
      | error er => rw [hr0] at h; cases h
      | ok pr =>
          obtain ⟨⟨stop, kids⟩, s1⟩ := pr
          obtain ⟨hP1, h1, h2⟩ :=
            runRep_mono input.length (fun q u => f ch q u) P (hf ch)
              repFuel pos s [] stop kids s1 hP hr0
          rw [hr0] at h
          simp only [Except.ok.injEq, Prod.mk.injEq] at h
          obtain ⟨rfl, rfl⟩ := h
          refine ⟨hP1, fun p t hr => ?_⟩
          cases hr
          exact ⟨h1, h2⟩
  | OneOrMore ch =>
      simp only [matchStep] at h
      cases hc : f ch pos s with
      | error er =>
          simp only [hc] at h
          exact Except.noConfusion h
      | ok pr =>
          obtain ⟨o, s1⟩ := pr
          cases o with
          | Failure fp fe =>
              simp only [hc, Except.ok.injEq, Prod.mk.injEq] at h
              obtain ⟨rfl, rfl⟩ := h
              exact ⟨(hf ch pos s _ _ hP hc).1, fun p t hr => by cases hr⟩
          | Success p1 t1 =>
              obtain ⟨hP1, hm⟩ := hf ch pos s _ _ hP hc
              obtain ⟨hle, hbd⟩ := hm p1 t1 rfl
              simp only [hc] at h
              split at h
              · simp only [Except.ok.injEq, Prod.mk.injEq] at h
                obtain ⟨rfl, rfl⟩ := h
                refine ⟨hP1, fun p t hr => ?_⟩
                cases hr
                exact ⟨hle, hbd⟩
              · cases hr1 : runRep (fun q u => f ch q u) repFuel p1 s1 t1.toList with
                | error er =>
                    simp only [hr1] at h
                    exact Except.noConfusion h
                | ok pr1 =>
                    obtain ⟨⟨stop, kids⟩, s2⟩ := pr1
                    obtain ⟨hP2, h1, h2⟩ :=
                      runRep_mono input.length (fun q u => f ch q u) P (hf ch)
                        repFuel p1 s1 t1.toList stop kids s2 hP1 hr1
                    simp only [hr1, Except.ok.injEq, Prod.mk.injEq] at h
                    obtain ⟨rfl, rfl⟩ := h
                    refine ⟨hP2, fun p t hr => ?_⟩
                    cases hr
                    exact ⟨le_trans hle h1, fun hpl => h2 (hbd hpl)⟩
  | Optional ch =>
      simp only [matchStep] at h
      cases hc : f ch pos s with
      | error er => rw [hc] at h; cases h
      | ok pr =>
          obtain ⟨o, s1⟩ := pr
          cases o with
          | Success p t =>
              simp only [hc, Except.ok.injEq, Prod.mk.injEq] at h
              obtain ⟨rfl, rfl⟩ := h
              obtain ⟨hP1, hm⟩ := hf ch pos s _ _ hP hc
              exact ⟨hP1, fun q u hr => by cases hr; exact hm p t rfl⟩
          | Failure fp fe =>
              simp only [hc, Except.ok.injEq, Prod.mk.injEq] at h
              obtain ⟨rfl, rfl⟩ := h
              refine ⟨(hf ch pos s _ _ hP hc).1, fun p t hr => ?_⟩
              cases hr
              exact ⟨le_refl _, fun hb => hb⟩
  | AndPredicate ch =>
      simp only [matchStep] at h
      cases hc : f ch pos s with
      | error er =>
          simp only [hc] at h
          exact Except.noConfusion h
      | ok pr =>
          obtain ⟨o, s1⟩ := pr
          cases o with
          | Success p t =>
              simp only [hc, Except.ok.injEq, Prod.mk.injEq] at h
              obtain ⟨rfl, rfl⟩ := h
              refine ⟨(hf ch pos s _ _ hP hc).1, fun q u hr => ?_⟩
              cases hr
              exact ⟨le_refl _, fun hb => hb⟩
          | Failure fp fe =>
              simp only [hc, Except.ok.injEq, Prod.mk.injEq] at h
              obtain ⟨rfl, rfl⟩ := h
              exact ⟨(hf ch pos s _ _ hP hc).1, fun p t hr => by cases hr⟩
  | NotPredicate ch =>
      simp only [matchStep] at h
      cases hc : f ch pos s with
      | error er =>
          simp only [hc] at h
          exact Except.noConfusion h
      | ok pr =>
          obtain ⟨o, s1⟩ := pr
          cases o with
          | Success p t =>
              simp only [hc, Except.ok.injEq, Prod.mk.injEq] at h
              obtain ⟨rfl, rfl⟩ := h
              exact ⟨(hf ch pos s _ _ hP hc).1, fun q u hr => by cases hr⟩
          | Failure fp fe =>
              simp only [hc, Except.ok.injEq, Prod.mk.injEq] at h
              obtain ⟨rfl, rfl⟩ := h
              refine ⟨(hf ch pos s _ _ hP hc).1, fun q u hr => ?_⟩
              cases hr
              exact ⟨le_refl _, fun hb => hb⟩
  | RuleReference nm => exact hrc nm pos s r s' hP h

/-- The memoizing engine at every fuel preserves cache well-formedness and
the cursor bounds. -/
theorem matchExpr_mono (rt : RuleTable) (input : List Char) :
    ∀ fuel e, PosMono input.length (matchExpr rt input fuel e)
      (CacheWF input.length) := by
  intro fuel
  induction fuel with
  | zero =>
      intro e pos s r s' hP h
      rw [matchExpr_zero] at h
      cases h
  | succ fuel ih =>
      intro e pos s r s' hP h
      rw [matchExpr_succ] at h
      exact matchStep_mono input fuel (ruleCaseC rt (matchExpr rt input fuel))
        (matchExpr rt input fuel) (CacheWF input.length) ih
        (ruleCaseC_mono rt input (matchExpr rt input fuel) ih) e pos s r s' hP h

/-- C3: a successful match never moves the cursor backwards (end position at
or after the start, and within the input when the start is), and for
`AndPredicate` and `NotPredicate` a success ends exactly at the start
position; the cache hypothesis is the well-formedness invariant that holds
of the fresh cache and is preserved by the engine. -/
theorem match_monotone_predicates_zero_width (rt : RuleTable)
    (input : List Char) (fuel : Nat) (e : Expr) (pos : Nat) (c : Cache)
    (p : Nat) (t : Option ParseNode) (c' : Cache)
    (hWF : CacheWF input.length c)
    (h : matchExpr rt input fuel e pos c = .ok (.Success p t, c')) :
    pos ≤ p ∧ (pos ≤ input.length → p ≤ input.length) ∧
      ∀ ch, (e = .AndPredicate ch ∨ e = .NotPredicate ch) → p = pos := by
  obtain ⟨-, hm⟩ := matchExpr_mono rt input fuel e pos c _ _ hWF h
  obtain ⟨h1, h2⟩ := hm p t rfl
  refine ⟨h1, h2, ?_⟩
  intro ch hch
  cases fuel with
  | zero => rw [matchExpr_zero] at h; exact Except.noConfusion h
  | succ fuel =>
      rw [matchExpr_succ] at h
      cases hch with
      | inl he =>
          subst he
          simp only [matchStep] at h
          cases hb : matchExpr rt input fuel ch pos c with
          | error er =>
              simp only [hb] at h
              exact Except.noConfusion h
          | ok pr =>
              obtain ⟨o, s1⟩ := pr
              cases o with
              | Success q u =>
                  simp only [hb, Except.ok.injEq, Prod.mk.injEq,
                    MatchOutcome.Success.injEq] at h
                  exact h.1.1.symm
              | Failure fp fe =>
                  simp only [hb, Except.ok.injEq, Prod.mk.injEq] at h
                  exact MatchOutcome.noConfusion h.1
      | inr he =>
          subst he
          simp only [matchStep] at h
          cases hb : matchExpr rt input fuel ch pos c with
          | error er =>
              simp only [hb] at h
              exact Except.noConfusion h
          | ok pr =>
              obtain ⟨o, s1⟩ := pr
              cases o with
              | Success q u =>
                  simp only [hb, Except.ok.injEq, Prod.mk.injEq] at h
                  exact MatchOutcome.noConfusion h.1
              | Failure fp fe =>
                  simp only [hb, Except.ok.injEq, Prod.mk.injEq,
                    MatchOutcome.Success.injEq] at h
                  exact h.1.1.symm

/-- Witness for C3 at `AndPredicate("a")` on input `"ab"`, a zero-width
success at position 0. -/
theorem match_monotone_predicates_zero_width_witness :
    (0 : Nat) ≤ 0 ∧ ((0 : Nat) ≤ 2 → (0 : Nat) ≤ 2) ∧
      ∀ ch, (Expr.AndPredicate (.Literal ['a']) = .AndPredicate ch ∨
        Expr.AndPredicate (.Literal ['a']) = .NotPredicate ch) → (0 : Nat) = 0 :=
  match_monotone_predicates_zero_width [] ['a', 'b'] 2
    (.AndPredicate (.Literal ['a'])) 0 [] 0 none [] (cacheWF_nil _) (by rfl)

/-- C6: when the top-level match succeeds, `parse` returns `Complete` exactly
when the end position equals the input length, and `Partial` (here `Part`)
with the tree and end position exactly when it is strictly less. -/
theorem parse_complete_iff_full (rt : RuleTable) (start : String)
    (input : List Char) (fuel p : Nat) (t : Option ParseNode) (c' : Cache)
    (h : matchExpr rt input fuel (.RuleReference start) 0 [] =
      .ok (.Success p t, c')) :
    (parse rt start input fuel = .ok (.Complete t) ↔ p = input.length) ∧
    (parse rt start input fuel = .ok (.Part t p) ↔ p < input.length) := by
  have hbd : p ≤ input.length := by
    obtain ⟨-, hm⟩ := matchExpr_mono rt input fuel _ 0 _ _ _ (cacheWF_nil _) h
    exact (hm p t rfl).2 (Nat.zero_le _)
  unfold parse
  simp only [h, classify]
  by_cases hp : p = input.length
  · rw [if_pos hp]
    refine ⟨⟨fun _ => hp, fun _ => rfl⟩, ⟨fun hq => ?_, fun hlt => ?_⟩⟩
    · simp only [Except.ok.injEq] at hq
      exact ParseResult.noConfusion hq
    · exact absurd hlt (by omega)
  · rw [if_neg hp]
    refine ⟨⟨fun hq => ?_, fun heq => absurd heq hp⟩,
      ⟨fun _ => Nat.lt_of_le_of_ne hbd hp, fun _ => rfl⟩⟩
    simp only [Except.ok.injEq] at hq
    exact ParseResult.noConfusion hq

/-- Witness for C6 on grammar `S := "a"` and input `"ab"`: a partial parse
ending at position 1 of 2. -/
theorem parse_complete_iff_full_witness :
    (parse rtW ("S") ['a', 'b'] 3 =
        .ok (.Complete (some (.mk ("S") 0 1 [.mk ("a") 0 1 []]))) ↔ 1 = 2) ∧
    (parse rtW ("S") ['a', 'b'] 3 =
        .ok (.Part (some (.mk ("S") 0 1 [.mk ("a") 0 1 []])) 1) ↔ 1 < 2) :=
  parse_complete_iff_full rtW ("S") ['a', 'b'] 3 1
    (some (.mk ("S") 0 1 [.mk ("a") 0 1 []]))
    [(("S", 0), .Success 1 (some (.mk ("S") 0 1 [.mk ("a") 0 1 []])))] (by rfl)

/-- C1: for every rule table and input, when the match of the start rule ends
in an ordinary match failure, the top-level `parse` returns the `Failed`
result carrying the furthest failure position and the expectation set; no
hard error escapes. -/
theorem parse_failed_no_raise (rt : RuleTable) (start : String)
    (input : List Char) (fuel fp : Nat) (fe : List String) (c' : Cache)
    (h : matchExpr rt input fuel (.RuleReference start) 0 [] =
      .ok (.Failure fp fe, c')) :
    parse rt start input fuel = .ok (.Failed fp fe) := by
  unfold parse
  rw [h]
  rfl

/-- Witness for C1 on the one-rule grammar `S := "a"` and input `"b"`. -/
theorem parse_failed_no_raise_witness :
    parse rtW ("S") ['b'] 2 = .ok (.Failed 0 ["a"]) :=
  parse_failed_no_raise rtW ("S") ['b'] 2 0 ["a"]
    [(("S", 0), .Failure 0 ["a"])] (by rfl)

/-- C2: for `OrderedChoice([A, B])` at position `pos`, if `A` matches there
then the choice's outcome (match result and memo state alike) is exactly
`A`'s outcome, for every `B`; the alternatives are tried from the original
pre-choice cursor and no later alternative runs after a success. -/
theorem ordered_choice_left_bias (rt : RuleTable) (input : List Char)
    (A B : Expr) (fuel pos p : Nat) (t : Option ParseNode) (c c' : Cache)
    (h : matchExpr rt input fuel A pos c = .ok (.Success p t, c')) :
    matchExpr rt input (fuel + 1) (.OrderedChoice [A, B]) pos c =
      .ok (.Success p t, c') := by
  rw [matchExpr_succ]
  show runChoice (matchExpr rt input fuel) [A, B] pos c none = _
  unfold runChoice
  rw [h]

/-- Witness for C2: both `"a"` and `"ab"` match input `"ab"` at 0, and the
choice returns the first alternative's result. -/
theorem ordered_choice_left_bias_witness :
    matchExpr [] ['a', 'b'] 2
        (.OrderedChoice [.Literal ['a'], .Literal ['a', 'b']]) 0 [] =
      .ok (.Success 1 (some (.mk ("a") 0 1 [])), []) :=
  ordered_choice_left_bias [] ['a', 'b'] (.Literal ['a'])
    (.Literal ['a', 'b']) 1 0 1 (some (.mk ("a") 0 1 [])) [] [] (by rfl)

/-- C4: `Optional(child)` always succeeds: a child success is passed through
unchanged, and a child failure becomes a zero-width success at the original
cursor with no subtree. -/
theorem optional_never_fails (rt : RuleTable) (input : List Char) (ch : Expr)
    (fuel pos : Nat) (r : MatchOutcome) (c c' : Cache)
    (h : matchExpr rt input fuel ch pos c = .ok (r, c')) :
    (∀ p t, r = .Success p t →
      matchExpr rt input (fuel + 1) (.Optional ch) pos c =
        .ok (.Success p t, c')) ∧
    (∀ fp fe, r = .Failure fp fe →
      matchExpr rt input (fuel + 1) (.Optional ch) pos c =
        .ok (.Success pos none, c')) ∧
    ∃ p t, matchExpr rt input (fuel + 1) (.Optional ch) pos c =
      .ok (.Success p t, c') := by
  have hs : ∀ p t, r = .Success p t →
      matchExpr rt input (fuel + 1) (.Optional ch) pos c =
        .ok (.Success p t, c') := by
    intro p t hr
    subst hr
    rw [matchExpr_succ]
    simp only [matchStep, h]
  have hf : ∀ fp fe, r = .Failure fp fe →
      matchExpr rt input (fuel + 1) (.Optional ch) pos c =
        .ok (.Success pos none, c') := by
    intro fp fe hr
    subst hr
    rw [matchExpr_succ]
    simp only [matchStep, h]
  refine ⟨hs, hf, ?_⟩
  cases r with
  | Success p t => exact ⟨p, t, hs p t rfl⟩
  | Failure fp fe => exact ⟨pos, none, hf fp fe rfl⟩

/-- Witness for C4: `Optional("x")` against input `"y"` succeeds zero-width
at the original position. -/
theorem optional_never_fails_witness :
    (∀ p t, MatchOutcome.Failure 0 ["x"] = .Success p t →
      matchExpr [] ['y'] 2 (.Optional (.Literal ['x'])) 0 [] =
        .ok (.Success p t, [])) ∧
    (∀ fp fe, MatchOutcome.Failure 0 ["x"] = .Failure fp fe →
      matchExpr [] ['y'] 2 (.Optional (.Literal ['x'])) 0 [] =
        .ok (.Success 0 none, [])) ∧
    ∃ p t, matchExpr [] ['y'] 2 (.Optional (.Literal ['x'])) 0 [] =
      .ok (.Success p t, []) :=
  optional_never_fails [] ['y'] (.Literal ['x']) 1 0
    (.Failure 0 ["x"]) [] [] (by rfl)

/-- C7: a `RuleReference` whose name is absent from the rule table at
resolution time makes the engine raise `UndefinedRuleError` — both at the
reference itself (when the cache has no entry for it) and surfaced by the
top-level `parse` — instead of returning an ordinary `Failed` result. -/
theorem undefined_rule_raises (rt : RuleTable) (input : List Char)
    (nm : String) (fuel pos : Nat) (c : Cache)
    (h1 : Cache.find c (nm, pos) = none)
    (h2 : RuleTable.resolve rt nm = none) :
    matchExpr rt input (fuel + 1) (.RuleReference nm) pos c =
      .error (.UndefinedRuleError nm) ∧
    parse rt nm input (fuel + 1) = .error (.UndefinedRuleError nm) := by
  have hstep : ∀ c0 p0, matchExpr rt input (fuel + 1) (.RuleReference nm) p0 c0 =
      ruleCaseC rt (matchExpr rt input fuel) nm p0 c0 := fun _ _ => rfl
  constructor
  · rw [hstep]
    unfold ruleCaseC
    rw [h1, h2]
  · unfold parse
    rw [hstep]
    unfold ruleCaseC
    have hnil : Cache.find [] (nm, 0) = none := rfl
    rw [hnil, h2]

/-- Witness for C7: an empty rule table and the rule name `"Missing"`. -/
theorem undefined_rule_raises_witness :
    matchExpr [] ['a'] 1 (.RuleReference ("Missing")) 0 [] =
      .error (.UndefinedRuleError ("Missing")) ∧
    parse [] ("Missing") ['a'] 1 = .error (.UndefinedRuleError ("Missing")) :=
  undefined_rule_raises [] ['a'] ("Missing") 0 0 [] (by rfl) (by rfl)

/-- C8: when README.md is readable, the setup script passes its entire
contents unchanged as `long_description`, with content type
`"text/markdown"`. -/
theorem setup_long_description_passthrough (d : WorkingDir) (s : String)
    (h : readFile d.files ("README.md") = some s) :
    ∃ args, runSetup d = some args ∧ args.long_description = s ∧
      args.long_description_content_type = "text/markdown" := by
  unfold runSetup
  rw [h]
  exact ⟨_, rfl, rfl, rfl⟩

/-- Witness for C8 on a directory whose README.md holds `"readme"`. -/
theorem setup_long_description_passthrough_witness :
    ∃ args, runSetup dirA = some args ∧ args.long_description = "readme" ∧
      args.long_description_content_type = "text/markdown" :=
  setup_long_description_passthrough dirA ("readme") (by rfl)

/-- C9: when README.md is absent, the `open` call raises before
`setuptools.setup` is reached, so no argument record is ever produced. -/
theorem setup_missing_readme_atomic (d : WorkingDir)
    (h : readFile d.files ("README.md") = none) :
    runSetup d = none := by
  unfold runSetup
  rw [h]

/-- Witness for C9 on a directory with no files. -/
theorem setup_missing_readme_atomic_witness : runSetup dirEmpty = none :=
  setup_missing_readme_atomic dirEmpty (by rfl)

/-- C10 counterexample: two directories with identical README.md contents on
which the setup script passes different argument sets to `setuptools.setup`,
because `find_packages()` depends on the rest of the directory. -/
theorem setup_args_not_env_independent :
    readFile dirA.files ("README.md") = readFile dirB.files ("README.md") ∧
    runSetup dirA ≠ runSetup dirB := by
  refine ⟨rfl, fun h => ?_⟩
  have h2 := congrArg (fun o => Option.map SetupArgs.packages o) h
  simp only [runSetup, readFile, dirA, dirB, find_packages] at h2
  exact absurd (Option.some.inj h2) (by simp)

/-- C10 amended: two runs in directories with equal README.md contents and
equal discovered package sets pass identical argument sets to
`setuptools.setup`; and every produced argument set has name `"parsik"` and
version `"0.9.1"`. -/
theorem setup_args_deterministic (d1 d2 : WorkingDir) (s : String)
    (h1 : readFile d1.files ("README.md") = some s)
    (h2 : readFile d2.files ("README.md") = some s)
    (hp : find_packages d1 = find_packages d2) :
    runSetup d1 = runSetup d2 ∧
    ∀ d args, runSetup d = some args →
      args.name = "parsik" ∧ args.version = "0.9.1" := by
  constructor
  · unfold runSetup
    rw [h1, h2, hp]
  · intro d args h
    unfold runSetup at h
    cases hd : readFile d.files ("README.md") with
    | none => rw [hd] at h; exact Option.noConfusion h
    | some fc =>
        rw [hd] at h
        cases Option.some.inj h
        exact ⟨rfl, rfl⟩

/-- Witness for the amended C10, applying it to two equal directories. -/
theorem setup_args_deterministic_witness :
    runSetup dirA = runSetup dirA ∧
    ∀ d args, runSetup d = some args →
      args.name = "parsik" ∧ args.version = "0.9.1" :=
  setup_args_deterministic dirA dirA ("readme") (by rfl) (by rfl) (by rfl)

/-- A defined sequencing run is unchanged when the child evaluator is
replaced by one refining it. -/
theorem runSeq_le {σ : Type} (f g : Ev σ) (hfg : ∀ e, PosLe (f e) (g e)) :
    ∀ (cs : List Expr) (pos : Nat) (s : σ) (acc : List ParseNode) r,
      runSeq f cs pos s acc = .ok r → runSeq g cs pos s acc = .ok r := by
  intro cs
  induction cs with
  | nil => intro pos s acc r h; exact h
  | cons ch cs ih =>
      intro pos s acc r h
      cases hc : f ch pos s with
      | error er =>
          simp only [runSeq, hc] at h
          exact Except.noConfusion h
      | ok pr =>
          obtain ⟨o, s1⟩ := pr
          have hg := hfg ch pos s (o, s1) hc
          cases o with
          | Failure p ex =>
              simp only [runSeq, hc] at h
              simp only [runSeq, hg]
              exact h
          | Success p t =>
              simp only [runSeq, hc] at h
              simp only [runSeq, hg]
              exact ih p s1 (acc ++ t.toList) r h

/-- A defined choice run is unchanged when the child evaluator is replaced by
one refining it. -/
theorem runChoice_le {σ : Type} (f g : Ev σ) (hfg : ∀ e, PosLe (f e) (g e)) :
    ∀ (cs : List Expr) (pos : Nat) (s : σ) (best : Option (Nat × List String)) r,
      runChoice f cs pos s best = .ok r → runChoice g cs pos s best = .ok r := by
  intro cs
  induction cs with
  | nil => intro pos s best r h; exact h
  | cons ch cs ih =>
      intro pos s best r h
      cases hc : f ch pos s with
      | error er =>
          simp only [runChoice, hc] at h
          exact Except.noConfusion h
      | ok pr =>
          obtain ⟨o, s1⟩ := pr
          have hg := hfg ch pos s (o, s1) hc
          cases o with
          | Success p t =>
              simp only [runChoice, hc] at h
              simp only [runChoice, hg]
              exact h
          | Failure p ex =>
              simp only [runChoice, hc] at h
              simp only [runChoice, hg]
              exact ih pos s1 (some (mergeFail best p ex)) r h

/-- A defined repetition run is unchanged when the child evaluator is
replaced by one refining it. -/
theorem runRep_le {σ : Type}
    (fc gc : Nat → σ → Except EngineError (MatchOutcome × σ))
    (hfg : PosLe fc gc) :
    ∀ (n pos : Nat) (s : σ) (acc : List ParseNode) r,
      runRep fc n pos s acc = .ok r → runRep gc n pos s acc = .ok r := by
  intro n
  induction n with
  | zero =>
      intro pos s acc r h
      simp only [runRep] at h
      exact Except.noConfusion h
  | succ n ih =>
      intro pos s acc r h
      cases hc : fc pos s with
      | error er =>
          simp only [runRep, hc] at h
          exact Except.noConfusion h
      | ok pr =>
          obtain ⟨o, s1⟩ := pr
          have hg := hfg pos s (o, s1) hc
          cases o with
          | Failure p ex =>
              simp only [runRep, hc] at h
              simp only [runRep, hg]
              exact h
          | Success p t =>
              simp only [runRep, hc] at h
              simp only [runRep, hg]
              split at h <;> rename_i hpp
              · rw [if_pos hpp]
                exact h
              · rw [if_neg hpp]
                exact ih p s1 (acc ++ t.toList) r h

/-- A defined repetition run stays defined and unchanged with one more unit
of repetition budget. -/
theorem runRep_fuel {σ : Type}
    (fc : Nat → σ → Except EngineError (MatchOutcome × σ)) :
    ∀ (n pos : Nat) (s : σ) (acc : List ParseNode) r,
      runRep fc n pos s acc = .ok r → runRep fc (n + 1) pos s acc = .ok r := by
  intro n
  induction n with
  | zero =>
      intro pos s acc r h
      simp only [runRep] at h
      exact Except.noConfusion h
  | succ n ih =>
      intro pos s acc r h
      cases hc : fc pos s with
      | error er =>
          simp only [runRep, hc] at h
          exact Except.noConfusion h
      | ok pr =>
          obtain ⟨o, s1⟩ := pr
          cases o with
          | Failure p ex =>
              simp only [runRep, hc] at h
              simp only [runRep, hc]
              exact h
          | Success p t =>
              simp only [runRep, hc] at h
              simp only [runRep, hc]
              split at h <;> rename_i hpp
              · rw [if_pos hpp]
                exact h
              · rw [if_neg hpp]
                exact ih p s1 (acc ++ t.toList) r h

/-- A defined dispatch step is unchanged when the sub-evaluator and rule
handler are refined and the repetition budget grows by one. -/
theorem matchStep_le {σ : Type} (input : List Char) (n : Nat)
    (rc rc' : String → Nat → σ → Except EngineError (MatchOutcome × σ))
    (f g : Ev σ)
    (hfg : ∀ e, PosLe (f e) (g e))
    (hrc : ∀ nm, PosLe (rc nm) (rc' nm)) :
    ∀ e pos s r, matchStep input n rc f e pos s = .ok r →
      matchStep input (n + 1) rc' g e pos s = .ok r := by
  intro e pos s r h
  cases e with
  | Literal text =>
      simp only [matchStep] at h ⊢
      exact h
  | CharClass pr descr =>
      simp only [matchStep] at h ⊢
      exact h
  | Sequence cs =>
      simp only [matchStep] at h ⊢
      cases hsq : runSeq f cs pos s [] with
      | error er =>
          simp only [hsq] at h
          exact Except.noConfusion h
      | ok pr2 =>
          obtain ⟨o, s1⟩ := pr2
          have hg := runSeq_le f g hfg cs pos s [] (o, s1) hsq
          cases o with
          | ok stop kids =>
              simp only [hsq] at h
              simp only [hg]
              exact h
          | fail fp fe =>
              simp only [hsq] at h
              simp only [hg]
              exact h
  | OrderedChoice cs =>
      simp only [matchStep] at h ⊢
      exact runChoice_le f g hfg cs pos s none r h
  | ZeroOrMore ch =>
      simp only [matchStep] at h ⊢
      cases hr0 : runRep (fun q u => f ch q u) n pos s [] with
      | error er =>
          simp only [hr0] at h
          exact Except.noConfusion h
      | ok pr2 =>
          obtain ⟨⟨stop, kids⟩, s1⟩ := pr2
          have hg1 := runRep_le (fun q u => f ch q u) (fun q u => g ch q u)
            (fun q u r2 h2 => hfg ch q u r2 h2) n pos s [] _ hr0
          have hg2 := runRep_fuel (fun q u => g ch q u) n pos s [] _ hg1
          simp only [hr0] at h
          simp only [hg2]
          exact h
  | OneOrMore ch =>
      simp only [matchStep] at h ⊢
      cases hc : f ch pos s with
      | error er =>
          simp only [hc] at h
          exact Except.noConfusion h
      | ok pr2 =>
          obtain ⟨o, s1⟩ := pr2
          have hg := hfg ch pos s (o, s1) hc
          cases o with
          | Failure fp fe =>
              simp only [hc] at h
              simp only [hg]
              exact h
          | Success p1 t1 =>
              simp only [hc] at h
              simp only [hg]
              split at h <;> rename_i hpp
              · rw [if_pos hpp]
                exact h
              · rw [if_neg hpp]
                cases hr1 : runRep (fun q u => f ch q u) n p1 s1 t1.toList with
                | error er =>
                    simp only [hr1] at h
                    exact Except.noConfusion h
                | ok pr3 =>
                    obtain ⟨⟨stop, kids⟩, s2⟩ := pr3
                    have hg1 := runRep_le (fun q u => f ch q u)
                      (fun q u => g ch q u) (fun q u r2 h2 => hfg ch q u r2 h2)
                      n p1 s1 t1.toList _ hr1
                    have hg2 := runRep_fuel (fun q u => g ch q u) n p1 s1
                      t1.toList _ hg1
                    simp only [hr1] at h
                    simp only [hg2]
                    exact h
  | Optional ch =>
      simp only [matchStep] at h ⊢
      cases hc : f ch pos s with
      | error er =>
          simp only [hc] at h
          exact Except.noConfusion h
      | ok pr2 =>
          obtain ⟨o, s1⟩ := pr2
          have hg := hfg ch pos s (o, s1) hc
          cases o with
          | Success p t =>
              simp only [hc] at h
              simp only [hg]
              exact h
          | Failure fp fe =>
              simp only [hc] at h
              simp only [hg]
              exact h
  | AndPredicate ch =>
      simp only [matchStep] at h ⊢
      cases hc : f ch pos s with
      | error er =>
          simp only [hc] at h
          exact Except.noConfusion h
      | ok pr2 =>
          obtain ⟨o, s1⟩ := pr2
          have hg := hfg ch pos s (o, s1) hc
          cases o with
          | Success p t =>
              simp only [hc] at h
              simp only [hg]
              exact h
          | Failure fp fe =>
              simp only [hc] at h
              simp only [hg]
              exact h
  | NotPredicate ch =>
      simp only [matchStep] at h ⊢
      cases hc : f ch pos s with
      | error er =>
          simp only [hc] at h
          exact Except.noConfusion h
      | ok pr2 =>
          obtain ⟨o, s1⟩ := pr2
          have hg := hfg ch pos s (o, s1) hc
          cases o with
          | Success p t =>
              simp only [hc] at h
              simp only [hg]
              exact h
          | Failure fp fe =>
              simp only [hc] at h
              simp only [hg]
              exact h
  | RuleReference nm => exact hrc nm pos s r h

/-- A defined memoizing rule handler is unchanged under a refined
sub-evaluator. -/
theorem ruleCaseC_le (rt : RuleTable) (f g : Ev Cache)
    (hfg : ∀ e, PosLe (f e) (g e)) :
    ∀ nm, PosLe (ruleCaseC rt f nm) (ruleCaseC rt g nm) := by
  intro nm pos c r h
  cases hfind : Cache.find c (nm, pos) with
  | some r0 =>
      simp only [ruleCaseC, hfind] at h ⊢
      exact h
  | none =>
      simp only [ruleCaseC, hfind] at h ⊢
      cases hres : RuleTable.resolve rt nm with
      | none =>
          simp only [hres] at h ⊢
          exact h
      | some body =>
          simp only [hres] at h ⊢
          cases hb : f body pos c with
          | error er =>
              simp only [hb] at h
              exact Except.noConfusion h
          | ok pr =>
              obtain ⟨rb, c1⟩ := pr
              simp only [hb] at h
              simp only [hfg body pos c (rb, c1) hb]
              exact h

/-- A defined cache-free rule handler is unchanged under a refined
sub-evaluator. -/
theorem ruleCaseNC_le (rt : RuleTable) (f g : Ev Unit)
    (hfg : ∀ e, PosLe (f e) (g e)) :
    ∀ nm, PosLe (ruleCaseNC rt f nm) (ruleCaseNC rt g nm) := by
  intro nm pos u r h
  cases hres : RuleTable.resolve rt nm with
  | none =>
      simp only [ruleCaseNC, hres] at h ⊢
      exact h
  | some body =>
      simp only [ruleCaseNC, hres] at h ⊢
      cases hb : f body pos () with
      | error er =>
          simp only [hb] at h
          exact Except.noConfusion h
      | ok pr =>
          obtain ⟨rb, u1⟩ := pr
          simp only [hb] at h
          simp only [hfg body pos () (rb, u1) hb]
          exact h

/-- One more unit of fuel never changes a defined result of the memoizing
engine. -/
theorem matchExpr_le_succ (rt : RuleTable) (input : List Char) :
    ∀ fuel e pos c r, matchExpr rt input fuel e pos c = .ok r →
      matchExpr rt input (fuel + 1) e pos c = .ok r := by
  intro fuel
  induction fuel with
  | zero =>
      intro e pos c r h
      rw [matchExpr_zero] at h
      exact Except.noConfusion h
  | succ fuel ih =>
      intro e pos c r h
      rw [matchExpr_succ] at h
      rw [matchExpr_succ]
      exact matchStep_le input fuel _ _ _ _ (fun e2 p2 c2 r2 h2 => ih e2 p2 c2 r2 h2)
        (ruleCaseC_le rt _ _ (fun e2 p2 c2 r2 h2 => ih e2 p2 c2 r2 h2)) e pos c r h

/-- One more unit of fuel never changes a defined result of the cache-free
engine. -/
theorem matchNC_le_succ (rt : RuleTable) (input : List Char) :
    ∀ fuel e pos u r, matchNC rt input fuel e pos u = .ok r →
      matchNC rt input (fuel + 1) e pos u = .ok r := by
  intro fuel
  induction fuel with
  | zero =>
      intro e pos u r h
      rw [matchNC_zero] at h
      exact Except.noConfusion h
  | succ fuel ih =>
      intro e pos u r h
      rw [matchNC_succ] at h
      rw [matchNC_succ]
      exact matchStep_le input fuel _ _ _ _ (fun e2 p2 u2 r2 h2 => ih e2 p2 u2 r2 h2)
        (ruleCaseNC_le rt _ _ (fun e2 p2 u2 r2 h2 => ih e2 p2 u2 r2 h2)) e pos u r h

/-- Extra fuel never changes a defined result of the memoizing engine. -/
theorem matchExpr_le (rt : RuleTable) (input : List Char) {fuel fuel' : Nat}
    (hle : fuel ≤ fuel') (e : Expr) (pos : Nat) (c : Cache)
    (r : MatchOutcome × Cache)
    (h : matchExpr rt input fuel e pos c = .ok r) :
    matchExpr rt input fuel' e pos c = .ok r := by
  induction hle with
  | refl => exact h
  | step hm ih => exact matchExpr_le_succ rt input _ e pos c r ih

/-- Extra fuel never changes a defined result of the cache-free engine. -/
theorem matchNC_le (rt : RuleTable) (input : List Char) {fuel fuel' : Nat}
    (hle : fuel ≤ fuel') (e : Expr) (pos : Nat) (u : Unit)
    (r : MatchOutcome × Unit)
    (h : matchNC rt input fuel e pos u = .ok r) :
    matchNC rt input fuel' e pos u = .ok r := by
  induction hle with
  | refl => exact h
  | step hm ih => exact matchNC_le_succ rt input _ e pos u r ih

/-- A cache-free sequencing run is simulated by the memoizing one from any
correct cache, preserving correctness. -/
theorem runSeq_sim (P : Cache → Prop) (g : Ev Unit) (f : Ev Cache)
    (hgf : ∀ e, PosSim P (g e) (f e)) :
    ∀ (cs : List Expr) (pos : Nat) (acc : List ParseNode) r u,
      runSeq g cs pos () acc = .ok (r, u) →
      ∀ c, P c → ∃ c', runSeq f cs pos c acc = .ok (r, c') ∧ P c' := by
  intro cs
  induction cs with
  | nil =>
      intro pos acc r u h c hP
      simp only [runSeq, Except.ok.injEq, Prod.mk.injEq] at h
      obtain ⟨rfl, -⟩ := h
      exact ⟨c, rfl, hP⟩
  | cons ch cs ih =>
      intro pos acc r u h c hP
      cases hgc : g ch pos () with
      | error er =>
          simp only [runSeq, hgc] at h
          exact Except.noConfusion h
      | ok pr =>
          obtain ⟨o, u1⟩ := pr
          obtain ⟨c1, hfc, hP1⟩ := hgf ch pos o u1 hgc c hP
          cases o with
          | Failure p ex =>
              simp only [runSeq, hgc, Except.ok.injEq, Prod.mk.injEq] at h
              obtain ⟨rfl, -⟩ := h
              refine ⟨c1, ?_, hP1⟩
              simp only [runSeq, hfc]
          | Success p t =>
              simp only [runSeq, hgc] at h
              obtain ⟨c2, hrec, hP2⟩ := ih p (acc ++ t.toList) r u h c1 hP1
              refine ⟨c2, ?_, hP2⟩
              simp only [runSeq, hfc]
              exact hrec

/-- A cache-free choice run is simulated by the memoizing one from any
correct cache, preserving correctness. -/
theorem runChoice_sim (P : Cache → Prop) (g : Ev Unit) (f : Ev Cache)
    (hgf : ∀ e, PosSim P (g e) (f e)) :
    ∀ (cs : List Expr) (pos : Nat) (best : Option (Nat × List String)) r u,
      runChoice g cs pos () best = .ok (r, u) →
      ∀ c, P c → ∃ c', runChoice f cs pos c best = .ok (r, c') ∧ P c' := by
  intro cs
  induction cs with
  | nil =>
      intro pos best r u h c hP
      cases best with
      | none =>
          simp only [runChoice, Except.ok.injEq, Prod.mk.injEq] at h
          obtain ⟨rfl, -⟩ := h
          exact ⟨c, rfl, hP⟩
      | some b =>
          obtain ⟨bp, bex⟩ := b
          simp only [runChoice, Except.ok.injEq, Prod.mk.injEq] at h
          obtain ⟨rfl, -⟩ := h
          exact ⟨c, rfl, hP⟩
  | cons ch cs ih =>
      intro pos best r u h c hP
      cases hgc : g ch pos () with
      | error er =>
          simp only [runChoice, hgc] at h
          exact Except.noConfusion h
      | ok pr =>
          obtain ⟨o, u1⟩ := pr
          obtain ⟨c1, hfc, hP1⟩ := hgf ch pos o u1 hgc c hP
          cases o with
          | Success p t =>
              simp only [runChoice, hgc, Except.ok.injEq, Prod.mk.injEq] at h
              obtain ⟨rfl, -⟩ := h
              refine ⟨c1, ?_, hP1⟩
              simp only [runChoice, hfc]
          | Failure p ex =>
              simp only [runChoice, hgc] at h
              obtain ⟨c2, hrec, hP2⟩ := ih pos (some (mergeFail best p ex)) r u h c1 hP1
              refine ⟨c2, ?_, hP2⟩
              simp only [runChoice, hfc]
              exact hrec

/-- A cache-free repetition run is simulated by the memoizing one from any
correct cache, preserving correctness. -/
theorem runRep_sim (P : Cache → Prop)
    (gc : Nat → Unit → Except EngineError (MatchOutcome × Unit))
    (fc : Nat → Cache → Except EngineError (MatchOutcome × Cache))
    (hgf : PosSim P gc fc) :
    ∀ (n pos : Nat) (acc : List ParseNode) r u,
      runRep gc n pos () acc = .ok (r, u) →
      ∀ c, P c → ∃ c', runRep fc n pos c acc = .ok (r, c') ∧ P c' := by
  intro n
  induction n with
  | zero =>
      intro pos acc r u h c hP
      simp only [runRep] at h
      exact Except.noConfusion h
  | succ n ih =>
      intro pos acc r u h c hP
      cases hgc : gc pos () with
      | error er =>
          simp only [runRep, hgc] at h
          exact Except.noConfusion h
      | ok pr =>
          obtain ⟨o, u1⟩ := pr
          obtain ⟨c1, hfc, hP1⟩ := hgf pos o u1 hgc c hP
          cases o with
          | Failure p ex =>
              simp only [runRep, hgc, Except.ok.injEq, Prod.mk.injEq] at h
              obtain ⟨rfl, -⟩ := h
              refine ⟨c1, ?_, hP1⟩
              simp only [runRep, hfc]
          | Success p t =>
              simp only [runRep, hgc] at h
              split at h <;> rename_i hpp
              · simp only [Except.ok.injEq, Prod.mk.injEq] at h
                obtain ⟨rfl, -⟩ := h
                refine ⟨c1, ?_, hP1⟩
                simp only [runRep, hfc]
                rw [if_pos hpp]
              · obtain ⟨c2, hrec, hP2⟩ := ih p (acc ++ t.toList) r u h c1 hP1
                refine ⟨c2, ?_, hP2⟩
                simp only [runRep, hfc]
                rw [if_neg hpp]
                exact hrec

/-- A cache-free dispatch step is simulated by the memoizing one at the same
repetition budget, given simulations for the sub-evaluator and rule
handler. -/
theorem matchStep_sim (input : List Char) (n : Nat) (P : Cache → Prop)
    (rcg : String → Nat → Unit → Except EngineError (MatchOutcome × Unit))
    (rcf : String → Nat → Cache → Except EngineError (MatchOutcome × Cache))
    (g : Ev Unit) (f : Ev Cache)
    (hgf : ∀ e, PosSim P (g e) (f e))
    (hrc : ∀ nm, PosSim P (rcg nm) (rcf nm)) :
    ∀ e, PosSim P (matchStep input n rcg g e) (matchStep input n rcf f e) := by
  intro e pos r u h c hP
  cases e with
  | Literal text =>
      refine ⟨c, ?_, hP⟩
      simp only [matchStep] at h ⊢
      by_cases htake : (input.drop pos).take text.length = text
      · rw [if_pos htake] at h ⊢
        simp only [Except.ok.injEq, Prod.mk.injEq] at h
        obtain ⟨rfl, -⟩ := h
        rfl
      · rw [if_neg htake] at h ⊢
        simp only [Except.ok.injEq, Prod.mk.injEq] at h
        obtain ⟨rfl, -⟩ := h
        rfl
  | CharClass pr descr =>
      refine ⟨c, ?_, hP⟩
      simp only [matchStep] at h ⊢
      cases hga : input[pos]? with
      | some a =>
          simp only [hga] at h ⊢
          by_cases hpa : pr a
          · rw [if_pos hpa] at h ⊢
            simp only [Except.ok.injEq, Prod.mk.injEq] at h
            obtain ⟨rfl, -⟩ := h
            rfl
          · rw [if_neg hpa] at h ⊢
            simp only [Except.ok.injEq, Prod.mk.injEq] at h
            obtain ⟨rfl, -⟩ := h
            rfl
      | none =>
          simp only [hga, Except.ok.injEq, Prod.mk.injEq] at h
          obtain ⟨rfl, -⟩ := h
          simp only [hga]
  | Sequence cs =>
      simp only [matchStep] at h ⊢
      cases hsq : runSeq g cs pos () [] with
      | error er =>
          simp only [hsq] at h
          exact Except.noConfusion h
      | ok pr2 =>
          obtain ⟨o, u1⟩ := pr2
          obtain ⟨c1, hfs, hP1⟩ := runSeq_sim P g f hgf cs pos [] o u1 hsq c hP
          cases o with
          | ok stop kids =>
              simp only [hsq, Except.ok.injEq, Prod.mk.injEq] at h
              obtain ⟨rfl, -⟩ := h
              refine ⟨c1, ?_, hP1⟩
              simp only [hfs]
          | fail fp fe =>
              simp only [hsq, Except.ok.injEq, Prod.mk.injEq] at h
              obtain ⟨rfl, -⟩ := h
              refine ⟨c1, ?_, hP1⟩
              simp only [hfs]
  | OrderedChoice cs =>
      simp only [matchStep] at h ⊢
      exact runChoice_sim P g f hgf cs pos none r u h c hP
  | ZeroOrMore ch =>
      simp only [matchStep] at h ⊢
      cases hr0 : runRep (fun q u2 => g ch q u2) n pos () [] with
      | error er =>
          simp only [hr0] at h
          exact Except.noConfusion h
      | ok pr2 =>
          obtain ⟨⟨stop, kids⟩, u1⟩ := pr2
          obtain ⟨c1, hfr, hP1⟩ := runRep_sim P (fun q u2 => g ch q u2)
            (fun q c2 => f ch q c2) (hgf ch) n pos [] (stop, kids) u1 hr0 c hP
          simp only [hr0, Except.ok.injEq, Prod.mk.injEq] at h
          obtain ⟨rfl, -⟩ := h
          refine ⟨c1, ?_, hP1⟩
          simp only [hfr]
  | OneOrMore ch =>
      simp only [matchStep] at h ⊢
      cases hgc : g ch pos () with
      | error er =>
          simp only [hgc] at h
          exact Except.noConfusion h
      | ok pr2 =>
          obtain ⟨o, u1⟩ := pr2
          obtain ⟨c1, hfc, hP1⟩ := hgf ch pos o u1 hgc c hP
          cases o with
          | Failure fp fe =>
              simp only [hgc, Except.ok.injEq, Prod.mk.injEq] at h
              obtain ⟨rfl, -⟩ := h
              refine ⟨c1, ?_, hP1⟩
              simp only [hfc]
          | Success p1 t1 =>
              simp only [hgc] at h
              split at h <;> rename_i hpp
              · simp only [Except.ok.injEq, Prod.mk.injEq] at h
                obtain ⟨rfl, -⟩ := h
                refine ⟨c1, ?_, hP1⟩
                simp only [hfc]
                rw [if_pos hpp]
              · cases hr1 : runRep (fun q u2 => g ch q u2) n p1 () t1.toList with
                | error er =>
                    simp only [hr1] at h
                    exact Except.noConfusion h
                | ok pr3 =>
                    obtain ⟨⟨stop, kids⟩, u2⟩ := pr3
                    obtain ⟨c2, hfr, hP2⟩ := runRep_sim P (fun q u3 => g ch q u3)
                      (fun q c3 => f ch q c3) (hgf ch) n p1 t1.toList
                      (stop, kids) u2 hr1 c1 hP1
                    simp only [hr1, Except.ok.injEq, Prod.mk.injEq] at h
                    obtain ⟨rfl, -⟩ := h
                    refine ⟨c2, ?_, hP2⟩
                    simp only [hfc]
                    rw [if_neg hpp]
                    simp only [hfr]
  | Optional ch =>
      simp only [matchStep] at h ⊢
      cases hgc : g ch pos () with
      | error er =>
          simp only [hgc] at h
          exact Except.noConfusion h
      | ok pr2 =>
          obtain ⟨o, u1⟩ := pr2
          obtain ⟨c1, hfc, hP1⟩ := hgf ch pos o u1 hgc c hP
          cases o with
          | Success p t =>
              simp only [hgc, Except.ok.injEq, Prod.mk.injEq] at h
              obtain ⟨rfl, -⟩ := h
              refine ⟨c1, ?_, hP1⟩
              simp only [hfc]
          | Failure fp fe =>
              simp only [hgc, Except.ok.injEq, Prod.mk.injEq] at h
              obtain ⟨rfl, -⟩ := h
              refine ⟨c1, ?_, hP1⟩
              simp only [hfc]
  | AndPredicate ch =>
      simp only [matchStep] at h ⊢
      cases hgc : g ch pos () with
      | error er =>
          simp only [hgc] at h
          exact Except.noConfusion h
      | ok pr2 =>
          obtain ⟨o, u1⟩ := pr2
          obtain ⟨c1, hfc, hP1⟩ := hgf ch pos o u1 hgc c hP
          cases o with
          | Success p t =>
              simp only [hgc, Except.ok.injEq, Prod.mk.injEq] at h
              obtain ⟨rfl, -⟩ := h
              refine ⟨c1, ?_, hP1⟩
              simp only [hfc]
          | Failure fp fe =>
              simp only [hgc, Except.ok.injEq, Prod.mk.injEq] at h
              obtain ⟨rfl, -⟩ := h
              refine ⟨c1, ?_, hP1⟩
              simp only [hfc]
  | NotPredicate ch =>
      simp only [matchStep] at h ⊢
      cases hgc : g ch pos () with
      | error er =>
          simp only [hgc] at h
          exact Except.noConfusion h
      | ok pr2 =>
          obtain ⟨o, u1⟩ := pr2
          obtain ⟨c1, hfc, hP1⟩ := hgf ch pos o u1 hgc c hP
          cases o with
          | Success p t =>
              simp only [hgc, Except.ok.injEq, Prod.mk.injEq] at h
              obtain ⟨rfl, -⟩ := h
              refine ⟨c1, ?_, hP1⟩
              simp only [hfc]
          | Failure fp fe =>
              simp only [hgc, Except.ok.injEq, Prod.mk.injEq] at h
              obtain ⟨rfl, -⟩ := h
              refine ⟨c1, ?_, hP1⟩
              simp only [hfc]
  | RuleReference nm =>
      simp only [matchStep] at h ⊢
      exact hrc nm pos r u h c hP

/-- The crux of memoization transparency: the memoizing rule handler
simulates the cache-free one from any correct cache.  A cache hit returns
the same outcome the cache-free engine computes (by fuel monotonicity and
determinism), and a miss recomputes it and stores a correct entry. -/
theorem ruleCase_sim (rt : RuleTable) (input : List Char) (fuel : Nat)
    (IH : ∀ e, PosSim (CacheOK rt input)
      (matchNC rt input fuel e) (matchExpr rt input fuel e)) :
    ∀ nm, PosSim (CacheOK rt input)
      (ruleCaseNC rt (matchNC rt input fuel) nm)
      (ruleCaseC rt (matchExpr rt input fuel) nm) := by
  intro nm pos r u h c hOK
  have hNCref : matchNC rt input (fuel + 1) (.RuleReference nm) pos () =
      .ok (r, ()) := by
    rw [matchNC_succ]
    exact h
  simp only [ruleCaseNC] at h
  cases hres : RuleTable.resolve rt nm with
  | none =>
      simp only [hres] at h
      exact Except.noConfusion h
  | some body =>
      simp only [hres] at h
      cases hb : matchNC rt input fuel body pos () with
      | error er =>
          simp only [hb] at h
          exact Except.noConfusion h
      | ok pr =>
          obtain ⟨rb, u1⟩ := pr
          simp only [hb, Except.ok.injEq, Prod.mk.injEq] at h
          obtain ⟨rfl, -⟩ := h
          simp only [ruleCaseC]
          cases hfind : Cache.find c (nm, pos) with
          | some r0 =>
              obtain ⟨fl, hfl⟩ := hOK nm pos r0 hfind
              have h1 := matchNC_le rt input (Nat.le_max_left fl (fuel + 1))
                (.RuleReference nm) pos () _ hfl
              have h2 := matchNC_le rt input (Nat.le_max_right fl (fuel + 1))
                (.RuleReference nm) pos () _ hNCref
              rw [h1] at h2
              simp only [Except.ok.injEq, Prod.mk.injEq] at h2
              obtain ⟨rfl, -⟩ := h2
              simp only [hfind]
              exact ⟨c, rfl, hOK⟩
          | none =>
              simp only [hfind, hres]
              obtain ⟨c1, hfb, hP1⟩ := IH body pos rb u1 hb c hOK
              simp only [hfb]
              refine ⟨((nm, pos), wrapRule nm pos rb) :: c1, rfl, ?_⟩
              intro nm2 p2 r2 hfind2
              by_cases hk : ((nm, pos) : String × Nat) = (nm2, p2)
              · cases hk
                rw [cacheFind_cons, if_pos rfl] at hfind2
                cases hfind2
                exact ⟨fuel + 1, hNCref⟩
              · rw [cacheFind_cons, if_neg hk] at hfind2
                exact hP1 nm2 p2 r2 hfind2

/-- The memoizing engine simulates the cache-free engine at every fuel, from
any correct cache. -/
theorem matchExpr_sim (rt : RuleTable) (input : List Char) :
    ∀ fuel e, PosSim (CacheOK rt input)
      (matchNC rt input fuel e) (matchExpr rt input fuel e) := by
  intro fuel
  induction fuel with
  | zero =>
      intro e pos r u h c hOK
      rw [matchNC_zero] at h
      exact Except.noConfusion h
  | succ fuel ih =>
      intro e pos r u h c hOK
      rw [matchNC_succ] at h
      obtain ⟨c', hc', hP⟩ := matchStep_sim input fuel (CacheOK rt input)
        (ruleCaseNC rt (matchNC rt input fuel))
        (ruleCaseC rt (matchExpr rt input fuel))
        (matchNC rt input fuel) (matchExpr rt input fuel) ih
        (ruleCase_sim rt input fuel ih) e pos r u h c hOK
      refine ⟨c', ?_, hP⟩
      rw [matchExpr_succ]
      exact hc'

/-- Extra fuel never changes a defined result of the top-level parse. -/
theorem parse_le (rt : RuleTable) (start : String) (input : List Char)
    {fuel fuel' : Nat} (hle : fuel ≤ fuel') (r : ParseResult)
    (h : parse rt start input fuel = .ok r) :
    parse rt start input fuel' = .ok r := by
  unfold parse at h ⊢
  cases hm : matchExpr rt input fuel (.RuleReference start) 0 [] with
  | error er =>
      simp only [hm] at h
      exact Except.noConfusion h
  | ok pr =>
      obtain ⟨o, c'⟩ := pr
      have hup := matchExpr_le rt input hle (.RuleReference start) 0 [] (o, c') hm
      simp only [hm] at h
      simp only [hup]
      exact h

/-- C5: for every rule table, start rule and input, any defined result of the
memoizing parse equals any defined result of the conceptually cache-disabled
parse, at whatever fuel bounds make them defined: memoization never changes
the `ParseResult`. -/
theorem memoization_transparent (rt : RuleTable) (start : String)
    (input : List Char) (fuelC fuelNC : Nat) (r r' : ParseResult)
    (hC : parse rt start input fuelC = .ok r)
    (hNC : parseNC rt start input fuelNC = .ok r') :
    r = r' := by
  have hC' : parse rt start input fuelNC = .ok r' := by
    unfold parseNC at hNC
    cases hm : matchNC rt input fuelNC (.RuleReference start) 0 () with
    | error er =>
        simp only [hm] at hNC
        exact Except.noConfusion hNC
    | ok pr =>
        obtain ⟨o, u⟩ := pr
        simp only [hm] at hNC
        obtain ⟨c', hfc, -⟩ := matchExpr_sim rt input fuelNC
          (.RuleReference start) 0 o u hm [] (cacheOK_nil rt input)
        unfold parse
        simp only [hfc]
        exact hNC
  have h1 := parse_le rt start input (Nat.le_max_left fuelC fuelNC) r hC
  have h2 := parse_le rt start input (Nat.le_max_right fuelC fuelNC) r' hC'
  rw [h1] at h2
  exact Except.ok.inj h2

/-- Witness for C5 on grammar `S := "a"` and input `"a"`: the memoizing and
cache-free parses both return the same complete tree. -/
theorem memoization_transparent_witness :
    ParseResult.Complete (some (.mk ("S") 0 1 [.mk ("a") 0 1 []])) =
      ParseResult.Complete (some (.mk ("S") 0 1 [.mk ("a") 0 1 []])) :=
  memoization_transparent rtW ("S") ['a'] 3 3
    (.Complete (some (.mk ("S") 0 1 [.mk ("a") 0 1 []])))
    (.Complete (some (.mk ("S") 0 1 [.mk ("a") 0 1 []]))) (by rfl) (by rfl)

end Parsik
